import Mathlib

/-!
Shallow embedding of the Thread-Pool repository (src/thread_pool.h,
src/thread_pool.cpp): a fixed-size work-stealing thread pool with a global
priority heap, per-worker local deques, atomic counters, and a two-flag
shutdown state machine.  Machine state is modelled explicitly; the worker
interleaving is modelled as a step relation between whole-pool states, with
the number of dequeued-but-not-yet-completed tasks tracked alongside the
pool object (it lives in the worker threads' stacks in the C++ code).
Tasks are identified by natural numbers; the type-erased callables and the
futures are external to the scheduler state.
-/

/-- Task priority levels, from src/thread_pool.h (enum class Priority). -/
inductive Priority where
  | HIGH
  | MEDIUM
  | LOW
deriving DecidableEq, Repr

/-- The numeric value of a priority (HIGH = 0, MEDIUM = 1, LOW = 2). -/
def Priority.val : Priority → Nat
  | .HIGH => 0
  | .MEDIUM => 1
  | .LOW => 2

namespace WorkStealingQueue

/-- A local deque's contents.  The head of the list is the "near" end
(std::deque front, where the owner pushes and pops); the last element is the
"far" end (std::deque back, where thieves steal). -/
abbrev Deque := List Nat

/-- WorkStealingQueue::push — inserts at the near end (push_front). -/
def push (task : Nat) (q : Deque) : Deque := task :: q

/-- WorkStealingQueue::pop — removes from the near end (front/pop_front);
returns the task and the remaining deque, or none when the deque is empty. -/
def pop (q : Deque) : Option (Nat × Deque) :=
  match q with
  | [] => none
  | task :: rest => some (task, rest)

/-- WorkStealingQueue::steal — removes from the far end (back/pop_back);
returns the task and the remaining deque, or none when the deque is empty. -/
def steal (q : Deque) : Option (Nat × Deque) :=
  match q.getLast? with
  | none => none
  | some task => some (task, q.dropLast)

end WorkStealingQueue

/-- The scheduler-visible state of one ThreadPool object:
queues, flags and counters, from src/thread_pool.h.  `workers_` is the size
of the `workers_` vector (the thread handles themselves carry no scheduler
state).  The global priority heap is modelled as a list kept sorted by
ascending priority value, so its head is the element `top()` returns. -/
structure PoolState where
  workers_ : Nat
  local_queues_ : List WorkStealingQueue.Deque
  global_queue_ : List (Priority × Nat)
  stop_ : Bool
  immediate_stop_ : Bool
  active_tasks_ : Nat
  pending_tasks_ : Nat
  tasks_completed_ : Nat
  tasks_stolen_ : Nat
  total_tasks_submitted_ : Nat
deriving DecidableEq, Repr

namespace ThreadPool

/-- ThreadPool::ThreadPool(num_threads): throws invalid_argument on
num_threads == 0 before spawning anything; otherwise creates num_threads
empty local deques and num_threads workers, all flags clear and all
counters zero. -/
def mkThreadPool (num_threads : Nat) : Except String PoolState :=
  if num_threads = 0 then
    Except.error "Thread pool must have at least one thread"
  else
    Except.ok
      { workers_ := num_threads
        local_queues_ := List.replicate num_threads []
        global_queue_ := []
        stop_ := false
        immediate_stop_ := false
        active_tasks_ := 0
        pending_tasks_ := 0
        tasks_completed_ := 0
        tasks_stolen_ := 0
        total_tasks_submitted_ := 0 }

/-- Insertion into the global priority heap (std::priority_queue of
PriorityTask, whose operator< inverts the priority value so that HIGH is on
top).  Modelled as ordered insertion by ascending priority value; ties keep
insertion order (the heap's tie order is unspecified but deterministic
under the single lock). -/
def heapPush (p : Priority) (task : Nat) : List (Priority × Nat) → List (Priority × Nat)
  | [] => [(p, task)]
  | (q, u) :: rest =>
      if p.val < q.val then (p, task) :: (q, u) :: rest
      else (q, u) :: heapPush p task rest

/-- ThreadPool::submit(priority, f, args...).  `counter` is the
function-local `static std::atomic<size_t> counter` that picks the target
deque for MEDIUM/LOW tasks; being a static it is shared by every pool
instance, so it is threaded through rather than stored in `PoolState`.
Returns (thrown error message if any, pool state, shared counter). -/
def submit (priority : Priority) (task : Nat) (s : PoolState) (counter : Nat) :
    Option String × PoolState × Nat :=
  if s.stop_ || s.immediate_stop_ then
    (some "Cannot submit task to stopped thread pools", s, counter)
  else
    let s1 := { s with
      active_tasks_ := s.active_tasks_ + 1
      pending_tasks_ := s.pending_tasks_ + 1
      total_tasks_submitted_ := s.total_tasks_submitted_ + 1 }
    if priority = Priority.HIGH then
      (none, { s1 with global_queue_ := heapPush priority task s1.global_queue_ }, counter)
    else
      let thread_id := counter % s1.workers_
      let q' := WorkStealingQueue.push task (s1.local_queues_.getD thread_id [])
      (none, { s1 with local_queues_ := s1.local_queues_.set thread_id q' }, counter + 1)

/-- The body of the `for (size_t i = 0; i < num_threads; ++i)` loop of
ThreadPool::try_steal, iterating over the offsets `offsets`: the target is
(start + i) % num_threads, the worker's own index is skipped, and the scan
stops at the first successful steal. -/
def steal_loop (thread_id start num_threads : Nat) (s : PoolState) :
    List Nat → Option (Nat × PoolState)
  | [] => none
  | i :: rest =>
      let target := (start + i) % num_threads
      if target = thread_id then steal_loop thread_id start num_threads s rest
      else
        match WorkStealingQueue.steal (s.local_queues_.getD target []) with
        | some (task, q') =>
            some (task, { s with local_queues_ := s.local_queues_.set target q' })
        | none => steal_loop thread_id start num_threads s rest

/-- ThreadPool::try_steal(thread_id, task).  `start` is the value drawn from
the uniform distribution over [0, num_threads).  With a single worker the
function returns false before scanning anything. -/
def try_steal (thread_id start : Nat) (s : PoolState) : Option (Nat × PoolState) :=
  let num_threads := s.workers_
  if num_threads = 1 then none
  else steal_loop thread_id start num_threads s (List.range num_threads)

/-- ThreadPool::get_task(thread_id, task): global heap first, then the
worker's own local deque, then the randomized steal scan (incrementing
tasks_stolen_ on a successful steal); none when every source is empty. -/
def get_task (thread_id start : Nat) (s : PoolState) : Option (Nat × PoolState) :=
  match s.global_queue_ with
  | (_, task) :: rest => some (task, { s with global_queue_ := rest })
  | [] =>
      match WorkStealingQueue.pop (s.local_queues_.getD thread_id []) with
      | some (task, q') =>
          some (task, { s with local_queues_ := s.local_queues_.set thread_id q' })
      | none =>
          match try_steal thread_id start s with
          | some (task, s') =>
              some (task, { s' with tasks_stolen_ := s'.tasks_stolen_ + 1 })
          | none => none

/-- The counter bookkeeping at the tail of the wrapped_task lambda in
ThreadPool::submit: active_tasks_--, pending_tasks_--, tasks_completed_++
(followed by wait_cv_.notify_all(), which carries no state). -/
def complete_one (s : PoolState) : PoolState :=
  { s with
    active_tasks_ := s.active_tasks_ - 1
    pending_tasks_ := s.pending_tasks_ - 1
    tasks_completed_ := s.tasks_completed_ + 1 }

/-- Outcome of invoking the user callable: a returned value or a raised
exception (carrying its message). -/
inductive TaskOutcome (α : Type) where
  | value : α → TaskOutcome α
  | raised : String → TaskOutcome α
deriving DecidableEq, Repr

/-- Invocation of the std::packaged_task held by the envelope (the host
platform's result-carrier primitive): it runs the callable and stores the
outcome — returned value or raised exception — into the shared state read
by the future; the user exception does not propagate out of operator(). -/
def packaged_task_invoke {α : Type} (f : Unit → TaskOutcome α) : TaskOutcome α :=
  f ()

/-- The wrapped_task lambda of ThreadPool::submit: invokes the packaged
task inside try/catch(...) (so nothing escapes the worker), then performs
the counter bookkeeping.  Returns the outcome stored into the result handle
together with the updated pool state. -/
def wrapped_task {α : Type} (f : Unit → TaskOutcome α) (s : PoolState) :
    TaskOutcome α × PoolState :=
  (packaged_task_invoke f, complete_one s)

/-- ThreadPool::shutdown_graceful: a no-op when a stop flag is already set;
otherwise sets stop_ (the notify and the joins carry no scheduler state). -/
def shutdown_graceful (s : PoolState) : PoolState :=
  if s.stop_ || s.immediate_stop_ then s
  else { s with stop_ := true }

/-- ThreadPool::shutdown_immediate: a no-op when immediate_stop_ is already
set; otherwise sets both flags, joins the workers, drains the global heap
and every local deque, and resets pending_tasks_ to 0. -/
def shutdown_immediate (s : PoolState) : PoolState :=
  if s.immediate_stop_ then s
  else
    { s with
      immediate_stop_ := true
      stop_ := true
      global_queue_ := []
      local_queues_ := s.local_queues_.map (fun _ => [])
      pending_tasks_ := 0 }

/-- ThreadPool::num_threads: the size of the workers_ vector. -/
def num_threads (s : PoolState) : Nat := s.workers_

/-- ThreadPool::Stats. -/
structure Stats where
  tasks_completed : Nat
  tasks_stolen : Nat
  total_tasks_submitted : Nat
deriving DecidableEq, Repr

/-- ThreadPool::get_stats. -/
def get_stats (s : PoolState) : Stats :=
  { tasks_completed := s.tasks_completed_
    tasks_stolen := s.tasks_stolen_
    total_tasks_submitted := s.total_tasks_submitted_ }

/-- Total number of tasks sitting in the pool's queues. -/
def queuedCount (s : PoolState) : Nat :=
  s.global_queue_.length + (s.local_queues_.map List.length).sum

/-- A whole-system state: one pool object, the shared static round-robin
counter of `submit`, and the number of tasks currently dequeued by worker
threads but not yet completed (held on worker stacks in the C++ code). -/
structure SysState where
  pool : PoolState
  counter : Nat
  in_flight : Nat
deriving DecidableEq, Repr

/-- One interleaving step of the system: an accepted submission, a worker
dequeuing a task (get_task with some random start), a worker finishing the
task it holds (the wrapped_task bookkeeping), or one of the shutdown calls.
`shutdown_immediate` joins all workers before draining, so it fires only
when no worker holds a task. -/
inductive Step : SysState → SysState → Prop where
  | submit_ok (p : Priority) (t : Nat) (st : SysState) (s' : PoolState) (c' : Nat) :
      submit p t st.pool st.counter = (none, s', c') →
      Step st ⟨s', c', st.in_flight⟩
  | dequeue (i start t : Nat) (st : SysState) (s' : PoolState) :
      get_task i start st.pool = some (t, s') →
      Step st ⟨s', st.counter, st.in_flight + 1⟩
  | exec (st : SysState) :
      0 < st.in_flight →
      Step st ⟨complete_one st.pool, st.counter, st.in_flight - 1⟩
  | graceful (st : SysState) :
      Step st ⟨shutdown_graceful st.pool, st.counter, st.in_flight⟩
  | immediate (st : SysState) :
      st.in_flight = 0 →
      Step st ⟨shutdown_immediate st.pool, st.counter, st.in_flight⟩

/-- States reachable by a pool constructed with `n` threads (the shared
static counter may hold any value at construction time). -/
inductive Reachable (n : Nat) : SysState → Prop where
  | init (s0 : PoolState) (c0 : Nat) :
      mkThreadPool n = Except.ok s0 → Reachable n ⟨s0, c0, 0⟩
  | step (st st' : SysState) : Reachable n st → Step st st' → Reachable n st'

end ThreadPool

namespace ThreadPool

/-- A freshly constructed two-worker pool (the state mkThreadPool 2 yields). -/
def pool2 : PoolState :=
  { workers_ := 2
    local_queues_ := [[], []]
    global_queue_ := []
    stop_ := false
    immediate_stop_ := false
    active_tasks_ := 0
    pending_tasks_ := 0
    tasks_completed_ := 0
    tasks_stolen_ := 0
    total_tasks_submitted_ := 0 }

/-- A freshly constructed one-worker pool (the state mkThreadPool 1 yields). -/
def pool1 : PoolState :=
  { workers_ := 1
    local_queues_ := [[]]
    global_queue_ := []
    stop_ := false
    immediate_stop_ := false
    active_tasks_ := 0
    pending_tasks_ := 0
    tasks_completed_ := 0
    tasks_stolen_ := 0
    total_tasks_submitted_ := 0 }

/-- C1: when the stop flag or the immediate-stop flag is set (DRAINING or
STOPPED), submit — with any priority, task and shared-counter value — fails
with the "pool stopped" error and returns the pool state and counter
entirely unchanged, so every counter and every queue is untouched. -/
theorem submit_fails_when_stopped (p : Priority) (t : Nat) (s : PoolState) (c : Nat)
    (h : s.stop_ = true ∨ s.immediate_stop_ = true) :
    submit p t s c = (some "Cannot submit task to stopped thread pools", s, c) := by
  unfold submit
  rcases h with h | h <;> simp [h]

/-- C1 witness: a concrete DRAINING pool (graceful shutdown of a fresh
two-worker pool) rejects a MEDIUM submission and is left unchanged. -/
theorem submit_fails_when_stopped_witness :
    submit Priority.MEDIUM 7 (shutdown_graceful pool2) 0 =
      (some "Cannot submit task to stopped thread pools", shutdown_graceful pool2, 0) :=
  submit_fails_when_stopped Priority.MEDIUM 7 (shutdown_graceful pool2) 0 (Or.inl rfl)

/-- C7: the local deque is LIFO for its owner and FIFO for thieves: push
inserts at the near end; pop removes the most recently pushed (near-end)
element and produces a task iff the deque was non-empty; steal removes the
oldest (far-end) element and produces a task iff the deque was non-empty. -/
theorem deque_lifo_fifo :
    (∀ (t : Nat) (q : WorkStealingQueue.Deque),
        WorkStealingQueue.push t q = t :: q) ∧
    (∀ (t : Nat) (q : WorkStealingQueue.Deque),
        WorkStealingQueue.pop (WorkStealingQueue.push t q) = some (t, q)) ∧
    (∀ q : WorkStealingQueue.Deque, WorkStealingQueue.pop q = none ↔ q = []) ∧
    (∀ q : WorkStealingQueue.Deque, WorkStealingQueue.steal q = none ↔ q = []) ∧
    (∀ (q : WorkStealingQueue.Deque) (u : Nat),
        WorkStealingQueue.steal (q ++ [u]) = some (u, q)) := by
  refine ⟨fun t q => rfl, fun t q => rfl, ?_, ?_, ?_⟩
  · intro q
    cases q <;> simp [WorkStealingQueue.pop]
  · intro q
    cases q with
    | nil => simp [WorkStealingQueue.steal]
    | cons a q' =>
        simp only [WorkStealingQueue.steal]
        rw [List.getLast?_eq_getLast _ (by simp)]
        simp
  · intro q u
    simp [WorkStealingQueue.steal, List.getLast?_concat, List.dropLast_concat]

/-- C8: construction with zero threads fails with the invalid-argument
error (no pool state is produced, so no worker is ever spawned);
construction with n ≥ 1 threads succeeds and the resulting pool reports
num_threads = n. -/
theorem construct_zero_fails_pos_succeeds :
    mkThreadPool 0 = Except.error "Thread pool must have at least one thread" ∧
    ∀ n : Nat, 0 < n → ∃ s : PoolState, mkThreadPool n = Except.ok s ∧ num_threads s = n := by
  refine ⟨rfl, fun n hn => ?_⟩
  unfold mkThreadPool
  rw [if_neg (Nat.pos_iff_ne_zero.mp hn)]
  exact ⟨_, rfl, rfl⟩

/-- C8 witness: the error at n = 0 and a successful three-worker pool. -/
theorem construct_zero_fails_pos_succeeds_witness :
    mkThreadPool 0 = Except.error "Thread pool must have at least one thread" ∧
    ∃ s : PoolState, mkThreadPool 3 = Except.ok s ∧ num_threads s = 3 :=
  ⟨construct_zero_fails_pos_succeeds.1, construct_zero_fails_pos_succeeds.2 3 (by decide)⟩

/-- C9: executing the envelope of a task whose user callable raises an
exception stores that exception into the result handle, performs exactly
the bookkeeping of a successful task (active--, pending--, completed++; the
final state is the same complete_one s for every callable), and leaves the
flags, the queues, and the cumulative stolen/submitted counters unchanged;
the envelope is a total function, so nothing escapes the worker. -/
theorem task_exception_captured (α : Type) (e : String) (s : PoolState) :
    (wrapped_task (α := α) (fun _ => TaskOutcome.raised e) s).1 = TaskOutcome.raised e ∧
    (wrapped_task (α := α) (fun _ => TaskOutcome.raised e) s).2 = complete_one s ∧
    (∀ f : Unit → TaskOutcome α, (wrapped_task f s).2 = complete_one s) ∧
    (complete_one s).stop_ = s.stop_ ∧
    (complete_one s).immediate_stop_ = s.immediate_stop_ ∧
    (complete_one s).global_queue_ = s.global_queue_ ∧
    (complete_one s).local_queues_ = s.local_queues_ ∧
    (complete_one s).workers_ = s.workers_ ∧
    (complete_one s).tasks_stolen_ = s.tasks_stolen_ ∧
    (complete_one s).total_tasks_submitted_ = s.total_tasks_submitted_ ∧
    (complete_one s).active_tasks_ = s.active_tasks_ - 1 ∧
    (complete_one s).pending_tasks_ = s.pending_tasks_ - 1 ∧
    (complete_one s).tasks_completed_ = s.tasks_completed_ + 1 :=
  ⟨rfl, rfl, fun _ => rfl, rfl, rfl, rfl, rfl, rfl, rfl, rfl, rfl, rfl, rfl⟩

end ThreadPool

namespace ThreadPool

/-- A deque steal produces a task exactly when the deque is non-empty. -/
theorem steal_eq_none_iff (q : WorkStealingQueue.Deque) :
    WorkStealingQueue.steal q = none ↔ q = [] := by
  cases q with
  | nil => simp [WorkStealingQueue.steal]
  | cons a q' =>
      simp only [WorkStealingQueue.steal]
      rw [List.getLast?_eq_getLast _ (by simp)]
      simp

/-- The order in which the steal protocol visits victim deques: all indices
(start + j) % N for j = 0, ..., N-1, with the worker's own index removed. -/
def stealOrder (num_threads thread_id start : Nat) : List Nat :=
  ((List.range num_threads).map (fun j => (start + j) % num_threads)).filter
    (fun target => target ≠ thread_id)

/-- Specification of the steal scan: walk the victim order and take the
first deque whose steal succeeds. -/
def firstStealSpec (s : PoolState) : List Nat → Option (Nat × PoolState)
  | [] => none
  | j :: rest =>
      match WorkStealingQueue.steal (s.local_queues_.getD j []) with
      | some (task, q') =>
          some (task, { s with local_queues_ := s.local_queues_.set j q' })
      | none => firstStealSpec s rest

theorem steal_loop_eq_spec (thread_id start N : Nat) (s : PoolState)
    (offsets : List Nat) :
    steal_loop thread_id start N s offsets =
      firstStealSpec s
        ((offsets.map (fun j => (start + j) % N)).filter (fun t => t ≠ thread_id)) := by
  induction offsets with
  | nil => rfl
  | cons o rest ih =>
      simp only [steal_loop, List.map_cons, List.filter_cons]
      by_cases h : (start + o) % N = thread_id
      · simp [h, ih]
      · cases hsteal : WorkStealingQueue.steal (s.local_queues_.getD ((start + o) % N) []) with
        | some r =>
            cases r with
            | mk task q' =>
                simp only [List.getD_eq_getElem?_getD] at hsteal
                simp [h, hsteal, firstStealSpec, ih]
        | none =>
            simp only [List.getD_eq_getElem?_getD] at hsteal
            simp [h, hsteal, firstStealSpec, ih]

theorem try_steal_eq_spec (s : PoolState) (i start : Nat) (hi : i < s.workers_) :
    try_steal i start s = firstStealSpec s (stealOrder s.workers_ i start) := by
  simp only [try_steal]
  by_cases h1 : s.workers_ = 1
  · rw [if_pos h1]
    have hi0 : i = 0 := by omega
    subst hi0
    have h2 : stealOrder s.workers_ 0 start = [] := by
      rw [h1]
      simp [stealOrder, Nat.mod_one]
    rw [h2]
    rfl
  · rw [if_neg h1, steal_loop_eq_spec]
    rfl

theorem firstStealSpec_eq_none (s : PoolState) (l : List Nat) :
    firstStealSpec s l = none ↔ ∀ j ∈ l, s.local_queues_.getD j [] = [] := by
  induction l with
  | nil => simp [firstStealSpec]
  | cons j rest ih =>
      simp only [firstStealSpec]
      cases hsteal : WorkStealingQueue.steal (s.local_queues_.getD j []) with
      | none =>
          have hj : s.local_queues_.getD j [] = [] := (steal_eq_none_iff _).mp hsteal
          rw [ih]
          constructor
          · intro hall x hx
            rcases List.mem_cons.mp hx with hx' | hx'
            · rw [hx']; exact hj
            · exact hall x hx'
          · intro hall x hx
            exact hall x (List.mem_cons_of_mem _ hx)
      | some r =>
          cases r with
          | mk task q' =>
              have hj : s.local_queues_.getD j [] ≠ [] := by
                intro hq
                rw [(steal_eq_none_iff _).mpr hq] at hsteal
                exact Option.noConfusion hsteal
              constructor
              · intro hcontra
                exact Option.noConfusion hcontra
              · intro hall
                exact (hj (hall j (List.mem_cons_self j rest))).elim

theorem exists_offset_mod (N start j : Nat) (hN : 0 < N) (hj : j < N) :
    ∃ o, o < N ∧ (start + o) % N = j := by
  have ha : start % N < N := Nat.mod_lt _ hN
  rcases le_or_lt (start % N) j with h | h
  · refine ⟨j - start % N, by omega, ?_⟩
    have h1 : start + (j - start % N) = N * (start / N) + j := by
      have := Nat.div_add_mod start N
      omega
    rw [h1, Nat.mul_add_mod, Nat.mod_eq_of_lt hj]
  · refine ⟨N + j - start % N, by omega, ?_⟩
    have h1 : start + (N + j - start % N) = N * (start / N) + (N + j) := by
      have := Nat.div_add_mod start N
      omega
    rw [h1, Nat.mul_add_mod, Nat.add_mod_left, Nat.mod_eq_of_lt hj]

theorem mem_stealOrder (N i start j : Nat) (hN : 0 < N) (hj : j < N) (hne : j ≠ i) :
    j ∈ stealOrder N i start := by
  obtain ⟨o, ho, hmod⟩ := exists_offset_mod N start j hN hj
  unfold stealOrder
  refine List.mem_filter.mpr ⟨List.mem_map.mpr ⟨o, List.mem_range.mpr ho, hmod⟩, by simp [hne]⟩

theorem stealOrder_lt (N i start j : Nat) (hN : 0 < N) (hj : j ∈ stealOrder N i start) :
    j < N := by
  unfold stealOrder at hj
  obtain ⟨o, _, rfl⟩ := List.mem_map.mp (List.mem_filter.mp hj).1
  exact Nat.mod_lt _ hN

end ThreadPool

namespace ThreadPool

/-- C2: get_task draws from its sources in the fixed order global heap,
then the worker's own local deque, then the steal scan.  For a start index
in [0, N): (a) a non-empty global heap is served first (its top is removed,
nothing else changes); (b) otherwise a non-empty own deque is popped at the
near end; (c) otherwise the result is exactly the first successful steal
along the scan order (start + j) % N, j = 0..N-1, skipping the worker's own
index, with tasks_stolen_ incremented on success; and (d) get_task yields
nothing exactly when the global heap and every local deque are empty. -/
theorem get_task_source_order (s : PoolState) (i start : Nat)
    (hi : i < s.workers_) (hlen : s.local_queues_.length = s.workers_)
    (hstart : start < s.workers_) :
    (∀ (p : Priority) (t : Nat) (rest : List (Priority × Nat)),
        s.global_queue_ = (p, t) :: rest →
        get_task i start s = some (t, { s with global_queue_ := rest })) ∧
    (s.global_queue_ = [] →
      ∀ (t : Nat) (q' : WorkStealingQueue.Deque),
        s.local_queues_.getD i [] = t :: q' →
        get_task i start s =
          some (t, { s with local_queues_ := s.local_queues_.set i q' })) ∧
    (s.global_queue_ = [] → s.local_queues_.getD i [] = [] →
      get_task i start s =
        Option.map
          (fun r : Nat × PoolState =>
            (r.1, { r.2 with tasks_stolen_ := r.2.tasks_stolen_ + 1 }))
          (firstStealSpec s (stealOrder s.workers_ i start))) ∧
    (get_task i start s = none ↔
      s.global_queue_ = [] ∧ ∀ j, j < s.workers_ → s.local_queues_.getD j [] = []) := by
  have hN : 0 < s.workers_ := Nat.lt_of_le_of_lt (Nat.zero_le i) hi
  refine ⟨?_, ?_, ?_, ?_⟩
  · intro p t rest hg
    unfold get_task
    rw [hg]
  · intro hg t q' hq
    unfold get_task
    rw [hg, hq]
    rfl
  · intro hg hq
    unfold get_task
    rw [hg, hq]
    rw [try_steal_eq_spec s i start hi]
    cases firstStealSpec s (stealOrder s.workers_ i start) with
    | none => rfl
    | some r => cases r with | mk t s' => rfl
  · constructor
    · intro hnone
      cases hg : s.global_queue_ with
      | cons pt rest =>
          cases pt with
          | mk p t =>
              unfold get_task at hnone
              rw [hg] at hnone
              exact Option.noConfusion hnone
      | nil =>
          refine ⟨rfl, ?_⟩
          cases hq : s.local_queues_.getD i [] with
          | cons t q' =>
              unfold get_task at hnone
              rw [hg, hq] at hnone
              exact Option.noConfusion hnone
          | nil =>
              have hts : try_steal i start s = none := by
                unfold get_task at hnone
                rw [hg, hq] at hnone
                cases hts' : try_steal i start s with
                | none => rfl
                | some r =>
                    cases r with
                    | mk t s' =>
                        rw [hts'] at hnone
                        exact Option.noConfusion hnone
              rw [try_steal_eq_spec s i start hi] at hts
              have hall := (firstStealSpec_eq_none s _).mp hts
              intro j hj
              by_cases hji : j = i
              · rw [hji]; exact hq
              · exact hall j (mem_stealOrder s.workers_ i start j hN hj hji)
    · intro h
      obtain ⟨hg, hall⟩ := h
      unfold get_task
      rw [hg, hall i hi]
      have hts : try_steal i start s = none := by
        rw [try_steal_eq_spec s i start hi]
        exact (firstStealSpec_eq_none s _).mpr
          (fun j hj => hall j (stealOrder_lt s.workers_ i start j hN hj))
      rw [hts]
      rfl

/-- A two-worker pool mid-run: one HIGH task in the global heap and one
task in each local deque. -/
def pool2busy : PoolState :=
  { pool2 with
    global_queue_ := [(Priority.HIGH, 9)]
    local_queues_ := [[3], [4]] }

/-- C2 witness: on a concrete two-worker pool with a HIGH task queued,
worker 0 (start index 1) takes the global task first. -/
theorem get_task_source_order_witness :
    get_task 0 1 pool2busy = some (9, { pool2busy with global_queue_ := [] }) :=
  (get_task_source_order pool2busy 0 1 (by decide) (by decide) (by decide)).1
    Priority.HIGH 9 [] rfl

end ThreadPool

namespace ThreadPool

theorem lt_length_of_getD_ne_nil (l : List (List Nat)) (j : Nat)
    (h : l.getD j [] ≠ []) : j < l.length := by
  by_contra hge
  exact h (List.getD_eq_default l [] (Nat.le_of_not_lt hge))

theorem sum_map_length_set (l : List (List Nat)) (i : Nat) (q : List Nat)
    (hi : i < l.length) :
    ((l.set i q).map List.length).sum + (l.getD i []).length
      = (l.map List.length).sum + q.length := by
  induction l generalizing i with
  | nil => simp at hi
  | cons a l ih =>
      cases i with
      | zero =>
          simp only [List.set_cons_zero, List.map_cons, List.sum_cons, List.getD_cons_zero]
          omega
      | succ n =>
          have hn : n < l.length := by simpa using Nat.lt_of_succ_lt_succ hi
          have ih' := ih n hn
          simp only [List.set_cons_succ, List.map_cons, List.sum_cons, List.getD_cons_succ]
          omega

theorem getD_empty_of_sum_zero (l : List (List Nat)) (h : (l.map List.length).sum = 0)
    (j : Nat) : l.getD j [] = [] := by
  induction l generalizing j with
  | nil => cases j <;> rfl
  | cons a l ih =>
      simp only [List.map_cons, List.sum_cons] at h
      have h1 : a.length = 0 := by omega
      have h2 : (l.map List.length).sum = 0 := by omega
      cases j with
      | zero =>
          rw [List.getD_cons_zero]
          exact List.length_eq_zero.mp h1
      | succ n =>
          rw [List.getD_cons_succ]
          exact ih h2 n

theorem heapPush_length (p : Priority) (t : Nat) (l : List (Priority × Nat)) :
    (heapPush p t l).length = l.length + 1 := by
  induction l with
  | nil => rfl
  | cons a rest ih =>
      cases a with
      | mk q u =>
          simp only [heapPush]
          by_cases h : p.val < q.val
          · rw [if_pos h]
            simp
          · rw [if_neg h]
            simp [ih]

theorem steal_length (q q' : List Nat) (t : Nat)
    (h : WorkStealingQueue.steal q = some (t, q')) : q.length = q'.length + 1 := by
  cases hq : q.getLast? with
  | none =>
      unfold WorkStealingQueue.steal at h
      rw [hq] at h
      exact Option.noConfusion h
  | some u =>
      unfold WorkStealingQueue.steal at h
      rw [hq] at h
      have hne : q ≠ [] := by
        intro he
        rw [he] at hq
        exact Option.noConfusion hq
      simp only [Option.some.injEq, Prod.mk.injEq] at h
      obtain ⟨rfl, rfl⟩ := h
      rw [List.length_dropLast]
      have := List.length_pos.mpr hne
      omega

theorem steal_loop_none_of_empty (thread_id start N : Nat) (s : PoolState)
    (hl : ∀ j, s.local_queues_.getD j [] = []) (offsets : List Nat) :
    steal_loop thread_id start N s offsets = none := by
  induction offsets with
  | nil => rfl
  | cons o rest ih =>
      simp only [steal_loop]
      by_cases h : (start + o) % N = thread_id
      · rw [if_pos h]
        exact ih
      · rw [if_neg h, hl ((start + o) % N)]
        exact ih

theorem get_task_none_of_empty (s : PoolState) (h : queuedCount s = 0) (i start : Nat) :
    get_task i start s = none := by
  have hg : s.global_queue_ = [] := by
    unfold queuedCount at h
    exact List.length_eq_zero.mp (by omega)
  have hl : ∀ j, s.local_queues_.getD j [] = [] := by
    intro j
    apply getD_empty_of_sum_zero
    unfold queuedCount at h
    omega
  have hts : try_steal i start s = none := by
    simp only [try_steal]
    by_cases h1 : s.workers_ = 1
    · rw [if_pos h1]
    · rw [if_neg h1]
      exact steal_loop_none_of_empty i start s.workers_ s hl (List.range s.workers_)
  unfold get_task
  rw [hg, hl i, hts]
  rfl

end ThreadPool

namespace ThreadPool

theorem steal_loop_some (thread_id start N : Nat) (s : PoolState) (offsets : List Nat)
    (t : Nat) (s' : PoolState)
    (h : steal_loop thread_id start N s offsets = some (t, s')) :
    ∃ target q', target < s.local_queues_.length ∧
      WorkStealingQueue.steal (s.local_queues_.getD target []) = some (t, q') ∧
      s' = { s with local_queues_ := s.local_queues_.set target q' } := by
  induction offsets with
  | nil => exact Option.noConfusion h
  | cons o rest ih =>
      simp only [steal_loop] at h
      by_cases hskip : (start + o) % N = thread_id
      · rw [if_pos hskip] at h
        exact ih h
      · rw [if_neg hskip] at h
        cases hsteal : WorkStealingQueue.steal (s.local_queues_.getD ((start + o) % N) []) with
        | none =>
            rw [hsteal] at h
            exact ih h
        | some r =>
            cases r with
            | mk t2 q' =>
                rw [hsteal] at h
                simp only [Option.some.injEq, Prod.mk.injEq] at h
                obtain ⟨rfl, rfl⟩ := h
                have hne : s.local_queues_.getD ((start + o) % N) [] ≠ [] := by
                  intro he
                  rw [(steal_eq_none_iff _).mpr he] at hsteal
                  exact Option.noConfusion hsteal
                exact ⟨(start + o) % N, q',
                  lt_length_of_getD_ne_nil _ _ hne, hsteal, rfl⟩

theorem try_steal_some (i start t : Nat) (s s' : PoolState)
    (h : try_steal i start s = some (t, s')) :
    s.workers_ ≠ 1 ∧
    ∃ target q', target < s.local_queues_.length ∧
      WorkStealingQueue.steal (s.local_queues_.getD target []) = some (t, q') ∧
      s' = { s with local_queues_ := s.local_queues_.set target q' } := by
  simp only [try_steal] at h
  by_cases h1 : s.workers_ = 1
  · rw [if_pos h1] at h
    exact Option.noConfusion h
  · rw [if_neg h1] at h
    exact ⟨h1, steal_loop_some i start s.workers_ s (List.range s.workers_) t s' h⟩

theorem get_task_some_cases (i start t : Nat) (s s2 : PoolState)
    (h : get_task i start s = some (t, s2)) :
    s2.workers_ = s.workers_ ∧
    s2.stop_ = s.stop_ ∧
    s2.immediate_stop_ = s.immediate_stop_ ∧
    s2.active_tasks_ = s.active_tasks_ ∧
    s2.pending_tasks_ = s.pending_tasks_ ∧
    s2.tasks_completed_ = s.tasks_completed_ ∧
    s2.total_tasks_submitted_ = s.total_tasks_submitted_ ∧
    s2.local_queues_.length = s.local_queues_.length ∧
    queuedCount s2 + 1 = queuedCount s ∧
    (s2.tasks_stolen_ = s.tasks_stolen_ ∨
      (s2.tasks_stolen_ = s.tasks_stolen_ + 1 ∧ s.workers_ ≠ 1)) := by
  unfold get_task at h
  cases hg : s.global_queue_ with
  | cons pt rest =>
      cases pt with
      | mk p t0 =>
          rw [hg] at h
          simp only [Option.some.injEq, Prod.mk.injEq] at h
          obtain ⟨rfl, rfl⟩ := h
          refine ⟨rfl, rfl, rfl, rfl, rfl, rfl, rfl, rfl, ?_, Or.inl rfl⟩
          unfold queuedCount
          rw [hg]
          simp only [List.length_cons]
          omega
  | nil =>
      rw [hg] at h
      cases hq : WorkStealingQueue.pop (s.local_queues_.getD i []) with
      | some r =>
          cases r with
          | mk t0 q' =>
              rw [hq] at h
              simp only [Option.some.injEq, Prod.mk.injEq] at h
              obtain ⟨rfl, rfl⟩ := h
              have hcons : s.local_queues_.getD i [] = t0 :: q' := by
                cases hqq : s.local_queues_.getD i [] with
                | nil =>
                    rw [hqq] at hq
                    exact Option.noConfusion hq
                | cons a as =>
                    rw [hqq] at hq
                    simp only [WorkStealingQueue.pop, Option.some.injEq,
                      Prod.mk.injEq] at hq
                    obtain ⟨rfl, rfl⟩ := hq
                    rfl
              have hi : i < s.local_queues_.length :=
                lt_length_of_getD_ne_nil _ _ (by rw [hcons]; exact List.cons_ne_nil _ _)
              refine ⟨rfl, rfl, rfl, rfl, rfl, rfl, rfl, by simp, ?_, Or.inl rfl⟩
              unfold queuedCount
              rw [hg]
              have hsum := sum_map_length_set s.local_queues_ i q' hi
              rw [hcons] at hsum
              simp only [List.length_nil, List.length_cons] at hsum ⊢
              simp only [List.length_nil, Nat.zero_add]
              omega
      | none =>
          rw [hq] at h
          cases hts : try_steal i start s with
          | none =>
              rw [hts] at h
              exact Option.noConfusion h
          | some r =>
              cases r with
              | mk t0 spre =>
                  rw [hts] at h
                  simp only [Option.some.injEq, Prod.mk.injEq] at h
                  obtain ⟨rfl, rfl⟩ := h
                  obtain ⟨hN1, target, q', htl, hsteal, rfl⟩ := try_steal_some i start t0 s spre hts
                  have hlen := steal_length _ q' t0 hsteal
                  refine ⟨rfl, rfl, rfl, rfl, rfl, rfl, rfl, by simp, ?_,
                    Or.inr ⟨rfl, hN1⟩⟩
                  unfold queuedCount
                  rw [hg]
                  have hsum := sum_map_length_set s.local_queues_ target q' htl
                  simp only [List.length_nil, Nat.zero_add]
                  omega

end ThreadPool

namespace ThreadPool

theorem submit_ok_cases (p : Priority) (t : Nat) (s : PoolState) (c : Nat)
    (s' : PoolState) (c' : Nat) (h : submit p t s c = (none, s', c')) :
    s.stop_ = false ∧ s.immediate_stop_ = false ∧
    s'.workers_ = s.workers_ ∧
    s'.stop_ = s.stop_ ∧
    s'.immediate_stop_ = s.immediate_stop_ ∧
    s'.active_tasks_ = s.active_tasks_ + 1 ∧
    s'.pending_tasks_ = s.pending_tasks_ + 1 ∧
    s'.total_tasks_submitted_ = s.total_tasks_submitted_ + 1 ∧
    s'.tasks_completed_ = s.tasks_completed_ ∧
    s'.tasks_stolen_ = s.tasks_stolen_ ∧
    s'.local_queues_.length = s.local_queues_.length ∧
    (0 < s.workers_ → s.local_queues_.length = s.workers_ →
      queuedCount s' = queuedCount s + 1) := by
  unfold submit at h
  by_cases hstop : (s.stop_ || s.immediate_stop_) = true
  · rw [if_pos hstop] at h
    simp at h
  · rw [if_neg hstop] at h
    simp only [Bool.or_eq_true, not_or, Bool.not_eq_true] at hstop
    obtain ⟨hs, him⟩ := hstop
    by_cases hp : p = Priority.HIGH
    · rw [if_pos hp] at h
      simp only [Prod.mk.injEq] at h
      obtain ⟨-, rfl, rfl⟩ := h
      refine ⟨hs, him, rfl, rfl, rfl, rfl, rfl, rfl, rfl, rfl, rfl, ?_⟩
      intro _ _
      unfold queuedCount
      simp only [heapPush_length]
      omega
    · rw [if_neg hp] at h
      simp only [Prod.mk.injEq] at h
      obtain ⟨-, rfl, rfl⟩ := h
      refine ⟨hs, him, rfl, rfl, rfl, rfl, rfl, rfl, rfl, rfl, by simp, ?_⟩
      intro hN hlen
      have hc : c % s.workers_ < s.local_queues_.length := by
        rw [hlen]
        exact Nat.mod_lt _ hN
      have hsum := sum_map_length_set s.local_queues_
        (c % s.workers_)
        (WorkStealingQueue.push t (s.local_queues_.getD (c % s.workers_) [])) hc
      have hpl : (WorkStealingQueue.push t
            (s.local_queues_.getD (c % s.workers_) [])).length
          = (s.local_queues_.getD (c % s.workers_) []).length + 1 := rfl
      unfold queuedCount
      dsimp only
      omega

/-- A whole-system invariant over the interleaving semantics: the pool has
at least one worker and one local deque per worker; queued plus in-flight
tasks never exceed pending; pending never exceeds active; every steal is of
a task that is completed or still in flight; a STOPPED pool has empty
queues, zero pending and no in-flight work; and a single-worker pool never
steals. -/
def Inv (st : SysState) : Prop :=
  0 < st.pool.workers_ ∧
  st.pool.local_queues_.length = st.pool.workers_ ∧
  st.in_flight + queuedCount st.pool ≤ st.pool.pending_tasks_ ∧
  st.pool.pending_tasks_ ≤ st.pool.active_tasks_ ∧
  st.pool.tasks_stolen_ ≤ st.pool.tasks_completed_ + st.in_flight ∧
  (st.pool.immediate_stop_ = true →
    st.pool.stop_ = true ∧ queuedCount st.pool = 0 ∧ st.pool.pending_tasks_ = 0 ∧
    st.in_flight = 0) ∧
  (st.pool.workers_ = 1 → st.pool.tasks_stolen_ = 0)

theorem Inv_init (n : Nat) (s0 : PoolState) (c0 : Nat)
    (h : mkThreadPool n = Except.ok s0) : Inv ⟨s0, c0, 0⟩ := by
  unfold mkThreadPool at h
  by_cases hn : n = 0
  · rw [if_pos hn] at h
    exact Except.noConfusion h
  · rw [if_neg hn] at h
    simp only [Except.ok.injEq] at h
    subst h
    unfold Inv queuedCount
    simp [List.map_replicate]
    omega

theorem Inv_step (st st' : SysState) (hinv : Inv st) (hstep : Step st st') : Inv st' := by
  obtain ⟨hN, hlen, hqueued, hpa, hstolen, himm, hone⟩ := hinv
  cases hstep with
  | submit_ok p t _ s' c' h =>
      obtain ⟨hs, him, hw, hsf, hif, ha, hp, hsub, hcmp, hst, hl, hq⟩ :=
        submit_ok_cases p t st.pool st.counter s' c' h
      have hq' := hq hN hlen
      unfold Inv
      dsimp only
      refine ⟨by omega, by omega, by omega, by omega, by omega, ?_, ?_⟩
      · intro hcontra
        rw [hif, him] at hcontra
        exact Bool.noConfusion hcontra
      · intro h1
        rw [hw] at h1
        rw [hst]
        exact hone h1
  | dequeue i start t _ s' h =>
      obtain ⟨hw, hsf, hif, ha, hp, hcmp, hsub, hl, hq, hst⟩ :=
        get_task_some_cases i start t st.pool s' h
      unfold Inv
      dsimp only
      refine ⟨by omega, by omega, by omega, by omega, ?_, ?_, ?_⟩
      · rcases hst with hst | hst
        · omega
        · omega
      · intro hcontra
        rw [hif] at hcontra
        obtain ⟨-, hq0, -, -⟩ := himm hcontra
        rw [get_task_none_of_empty st.pool hq0 i start] at h
        exact Option.noConfusion h
      · intro h1
        rw [hw] at h1
        rcases hst with hst | hst
        · rw [hst]
          exact hone h1
        · exact absurd h1 hst.2
  | exec _ hpos =>
      have hp0 : 0 < st.pool.pending_tasks_ := by omega
      have hqc : queuedCount (complete_one st.pool) = queuedCount st.pool := rfl
      have e1 : (complete_one st.pool).active_tasks_ = st.pool.active_tasks_ - 1 := rfl
      have e2 : (complete_one st.pool).pending_tasks_ = st.pool.pending_tasks_ - 1 := rfl
      have e3 : (complete_one st.pool).tasks_completed_ = st.pool.tasks_completed_ + 1 := rfl
      have e4 : (complete_one st.pool).tasks_stolen_ = st.pool.tasks_stolen_ := rfl
      have e5 : (complete_one st.pool).workers_ = st.pool.workers_ := rfl
      have e6 : (complete_one st.pool).local_queues_.length
          = st.pool.local_queues_.length := rfl
      have e7 : (complete_one st.pool).immediate_stop_ = st.pool.immediate_stop_ := rfl
      unfold Inv
      dsimp only
      refine ⟨by omega, by omega, by omega, by omega, by omega, ?_, ?_⟩
      · intro hc
        rw [e7] at hc
        obtain ⟨-, -, -, h0⟩ := himm hc
        exact absurd hpos (by omega)
      · intro h1
        rw [e5] at h1
        rw [e4]
        exact hone h1
  | graceful _ =>
      have hqc : queuedCount (shutdown_graceful st.pool) = queuedCount st.pool := by
        unfold shutdown_graceful
        by_cases hstop : (st.pool.stop_ || st.pool.immediate_stop_) = true
        · rw [if_pos hstop]
        · rw [if_neg hstop]
          rfl
      have e1 : (shutdown_graceful st.pool).active_tasks_ = st.pool.active_tasks_ := by
        unfold shutdown_graceful
        by_cases hstop : (st.pool.stop_ || st.pool.immediate_stop_) = true
        · rw [if_pos hstop]
        · rw [if_neg hstop]
      have e2 : (shutdown_graceful st.pool).pending_tasks_ = st.pool.pending_tasks_ := by
        unfold shutdown_graceful
        by_cases hstop : (st.pool.stop_ || st.pool.immediate_stop_) = true
        · rw [if_pos hstop]
        · rw [if_neg hstop]
      have e3 : (shutdown_graceful st.pool).tasks_completed_ = st.pool.tasks_completed_ := by
        unfold shutdown_graceful
        by_cases hstop : (st.pool.stop_ || st.pool.immediate_stop_) = true
        · rw [if_pos hstop]
        · rw [if_neg hstop]
      have e4 : (shutdown_graceful st.pool).tasks_stolen_ = st.pool.tasks_stolen_ := by
        unfold shutdown_graceful
        by_cases hstop : (st.pool.stop_ || st.pool.immediate_stop_) = true
        · rw [if_pos hstop]
        · rw [if_neg hstop]
      have e5 : (shutdown_graceful st.pool).workers_ = st.pool.workers_ := by
        unfold shutdown_graceful
        by_cases hstop : (st.pool.stop_ || st.pool.immediate_stop_) = true
        · rw [if_pos hstop]
        · rw [if_neg hstop]
      have e6 : (shutdown_graceful st.pool).local_queues_.length
          = st.pool.local_queues_.length := by
        unfold shutdown_graceful
        by_cases hstop : (st.pool.stop_ || st.pool.immediate_stop_) = true
        · rw [if_pos hstop]
        · rw [if_neg hstop]
      have e7 : (shutdown_graceful st.pool).immediate_stop_ = st.pool.immediate_stop_ := by
        unfold shutdown_graceful
        by_cases hstop : (st.pool.stop_ || st.pool.immediate_stop_) = true
        · rw [if_pos hstop]
        · rw [if_neg hstop]
      unfold Inv
      dsimp only
      refine ⟨by omega, by omega, by omega, by omega, by omega, ?_, ?_⟩
      · intro hc
        rw [e7] at hc
        have hid : shutdown_graceful st.pool = st.pool := by
          unfold shutdown_graceful
          rw [if_pos (by rw [hc]; simp)]
        obtain ⟨hstopT, hq0, hp0, h0⟩ := himm hc
        rw [hid]
        exact ⟨hstopT, hq0, hp0, h0⟩
      · intro h1
        rw [e5] at h1
        rw [e4]
        exact hone h1
  | immediate _ h0 =>
      by_cases hi : st.pool.immediate_stop_ = true
      · have hid : shutdown_immediate st.pool = st.pool := by
          unfold shutdown_immediate
          rw [if_pos hi]
        unfold Inv
        dsimp only
        rw [hid]
        exact ⟨hN, hlen, hqueued, hpa, hstolen, himm, hone⟩
      · have e : shutdown_immediate st.pool =
            { st.pool with
              immediate_stop_ := true
              stop_ := true
              global_queue_ := []
              local_queues_ := st.pool.local_queues_.map (fun _ => [])
              pending_tasks_ := 0 } := by
          unfold shutdown_immediate
          rw [if_neg hi]
        have hq0 : queuedCount (shutdown_immediate st.pool) = 0 := by
          rw [e]
          unfold queuedCount
          simp [List.map_map, Function.comp]
        have e1 : (shutdown_immediate st.pool).pending_tasks_ = 0 := by rw [e]
        have e2 : (shutdown_immediate st.pool).workers_ = st.pool.workers_ := by rw [e]
        have e3 : (shutdown_immediate st.pool).local_queues_.length
            = st.pool.local_queues_.length := by
          rw [e]
          simp
        have e4 : (shutdown_immediate st.pool).active_tasks_ = st.pool.active_tasks_ := by
          rw [e]
        have e5 : (shutdown_immediate st.pool).tasks_stolen_ = st.pool.tasks_stolen_ := by
          rw [e]
        have e6 : (shutdown_immediate st.pool).tasks_completed_
            = st.pool.tasks_completed_ := by rw [e]
        have estop : (shutdown_immediate st.pool).stop_ = true := by rw [e]
        unfold Inv
        dsimp only
        refine ⟨by omega, by omega, by omega, by omega, by omega,
          fun _ => ⟨estop, hq0, e1, h0⟩, ?_⟩
        · intro h1
          rw [e2] at h1
          rw [e5]
          exact hone h1

end ThreadPool

namespace ThreadPool

theorem Inv_reachable (n : Nat) (st : SysState) (h : Reachable n st) : Inv st := by
  induction h with
  | init s0 c0 h0 => exact Inv_init n s0 c0 h0
  | step st1 st2 hr hs ih => exact Inv_step st1 st2 ih hs

theorem workers_reachable (n : Nat) (st : SysState) (h : Reachable n st) :
    st.pool.workers_ = n := by
  induction h with
  | init s0 c0 h0 =>
      unfold mkThreadPool at h0
      by_cases hn : n = 0
      · rw [if_pos hn] at h0
        exact Except.noConfusion h0
      · rw [if_neg hn] at h0
        simp only [Except.ok.injEq] at h0
        subst h0
        rfl
  | step st1 st2 hr hs ih =>
      cases hs with
      | submit_ok p t _ s' c' hsub =>
          obtain ⟨-, -, hw, -⟩ := submit_ok_cases p t st1.pool st1.counter s' c' hsub
          dsimp only
          rw [hw]
          exact ih
      | dequeue i start t _ s' hget =>
          obtain ⟨hw, -⟩ := get_task_some_cases i start t st1.pool s' hget
          dsimp only
          rw [hw]
          exact ih
      | exec _ hpos => exact ih
      | graceful _ =>
          dsimp only
          unfold shutdown_graceful
          by_cases hstop : (st1.pool.stop_ || st1.pool.immediate_stop_) = true
          · rw [if_pos hstop]
            exact ih
          · rw [if_neg hstop]
            exact ih
      | immediate _ h0 =>
          dsimp only
          unfold shutdown_immediate
          by_cases hi : st1.pool.immediate_stop_ = true
          · rw [if_pos hi]
            exact ih
          · rw [if_neg hi]
            exact ih

theorem all_nil_of_sum_zero (l : List (List Nat)) (h : (l.map List.length).sum = 0) :
    ∀ q ∈ l, q = [] := by
  induction l with
  | nil =>
      intro q hq
      exact absurd hq (List.not_mem_nil q)
  | cons a rest ih =>
      simp only [List.map_cons, List.sum_cons] at h
      intro q hq
      rcases List.mem_cons.mp hq with hq' | hq'
      · rw [hq']
        exact List.length_eq_zero.mp (by omega)
      · exact ih (by omega) q hq'

end ThreadPool

namespace ThreadPool

/-- C3: after shutdown_immediate on any reachable pool state, the pool is
STOPPED (both the immediate-stop and stop flags are set), the global heap
and every local deque are empty, and the pending counter is 0. -/
theorem shutdown_immediate_post (n : Nat) (st : SysState) (h : Reachable n st) :
    (shutdown_immediate st.pool).immediate_stop_ = true ∧
    (shutdown_immediate st.pool).stop_ = true ∧
    (shutdown_immediate st.pool).global_queue_ = [] ∧
    (∀ q ∈ (shutdown_immediate st.pool).local_queues_, q = []) ∧
    (shutdown_immediate st.pool).pending_tasks_ = 0 := by
  obtain ⟨-, -, -, -, -, himm, -⟩ := Inv_reachable n st h
  unfold shutdown_immediate
  by_cases hi : st.pool.immediate_stop_ = true
  · rw [if_pos hi]
    obtain ⟨hstopT, hq0, hp0, -⟩ := himm hi
    unfold queuedCount at hq0
    refine ⟨hi, hstopT, ?_, ?_, hp0⟩
    · exact List.length_eq_zero.mp (by omega)
    · exact all_nil_of_sum_zero st.pool.local_queues_ (by omega)
  · rw [if_neg hi]
    refine ⟨rfl, rfl, rfl, ?_, rfl⟩
    intro q hq
    simp only [List.mem_map] at hq
    obtain ⟨-, -, hq⟩ := hq
    exact hq.symm

/-- C3 witness: a fresh one-worker pool, shut down immediately. -/
theorem shutdown_immediate_post_witness :
    (shutdown_immediate pool1).immediate_stop_ = true ∧
    (shutdown_immediate pool1).stop_ = true ∧
    (shutdown_immediate pool1).global_queue_ = [] ∧
    (shutdown_immediate pool1).pending_tasks_ = 0 :=
  have h := shutdown_immediate_post 1 ⟨pool1, 0, 0⟩ (Reachable.init pool1 0 rfl)
  ⟨h.1, h.2.1, h.2.2.1, h.2.2.2.2⟩

/-- The two-worker pool after one accepted MEDIUM submission: task 7 sits
in worker 0's local deque. -/
def pool2submitted : PoolState :=
  { workers_ := 2
    local_queues_ := [[7], []]
    global_queue_ := []
    stop_ := false
    immediate_stop_ := false
    active_tasks_ := 1
    pending_tasks_ := 1
    tasks_completed_ := 0
    tasks_stolen_ := 0
    total_tasks_submitted_ := 1 }

/-- The same pool after worker 1 steals task 7 from worker 0's deque: one
steal recorded, the stolen task still in flight, nothing completed. -/
def pool2stolen : PoolState :=
  { workers_ := 2
    local_queues_ := [[], []]
    global_queue_ := []
    stop_ := false
    immediate_stop_ := false
    active_tasks_ := 1
    pending_tasks_ := 1
    tasks_completed_ := 0
    tasks_stolen_ := 1
    total_tasks_submitted_ := 1 }

/-- C4 counterexample: stolen ≤ completed does not hold in every reachable
state.  Submit one MEDIUM task to a fresh two-worker pool and let worker 1
steal it: tasks_stolen_ is incremented at steal time, before the task
executes, so the pool reaches a state with stolen = 1 and completed = 0. -/
theorem stolen_le_completed_cex :
    ¬ (∀ (n : Nat) (st : SysState), Reachable n st →
        st.pool.tasks_stolen_ ≤ st.pool.tasks_completed_) := by
  intro hall
  have h1 : Reachable 2 ⟨pool2, 0, 0⟩ := Reachable.init pool2 0 rfl
  have h2 : Reachable 2 ⟨pool2submitted, 1, 0⟩ :=
    Reachable.step _ _ h1 (Step.submit_ok Priority.MEDIUM 7 _ pool2submitted 1 (by decide))
  have h3 : Reachable 2 ⟨pool2stolen, 1, 1⟩ :=
    Reachable.step _ _ h2 (Step.dequeue 1 0 7 _ pool2stolen (by decide))
  exact absurd (hall 2 ⟨pool2stolen, 1, 1⟩ h3) (by decide)

/-- C4 amended: in every reachable state, stolen ≤ completed plus the
number of dequeued-but-not-yet-completed tasks; the inequality
stolen ≤ completed can fail only while a stolen task is in flight, and is
restored as soon as every dequeued task finishes. -/
theorem stolen_le_completed_plus_in_flight (n : Nat) (st : SysState)
    (h : Reachable n st) :
    st.pool.tasks_stolen_ ≤ st.pool.tasks_completed_ + st.in_flight :=
  (Inv_reachable n st h).2.2.2.2.1

/-- C4 witness: the bound holds in the concrete reached state with one
stolen task in flight. -/
theorem stolen_le_completed_plus_in_flight_witness :
    pool2stolen.tasks_stolen_ ≤ pool2stolen.tasks_completed_ + 1 := by
  have h1 : Reachable 2 ⟨pool2, 0, 0⟩ := Reachable.init pool2 0 rfl
  have h2 : Reachable 2 ⟨pool2submitted, 1, 0⟩ :=
    Reachable.step _ _ h1 (Step.submit_ok Priority.MEDIUM 7 _ pool2submitted 1 (by decide))
  have h3 : Reachable 2 ⟨pool2stolen, 1, 1⟩ :=
    Reachable.step _ _ h2 (Step.dequeue 1 0 7 _ pool2stolen (by decide))
  exact stolen_le_completed_plus_in_flight 2 ⟨pool2stolen, 1, 1⟩ h3

/-- The one-worker pool after one accepted MEDIUM submission: task 5 in
the single local deque, active = pending = 1. -/
def pool1submitted : PoolState :=
  { workers_ := 1
    local_queues_ := [[5]]
    global_queue_ := []
    stop_ := false
    immediate_stop_ := false
    active_tasks_ := 1
    pending_tasks_ := 1
    tasks_completed_ := 0
    tasks_stolen_ := 0
    total_tasks_submitted_ := 1 }

/-- C5 counterexample: active == pending does not hold in every reachable
state.  Submit one task to a fresh one-worker pool and call
shutdown_immediate before the task is dequeued: pending is reset to 0 but
active_tasks_ is left at 1 (the dropped envelope never runs its
decrement). -/
theorem active_eq_pending_cex :
    ¬ (∀ (n : Nat) (st : SysState), Reachable n st →
        st.pool.active_tasks_ = st.pool.pending_tasks_) := by
  intro hall
  have h1 : Reachable 1 ⟨pool1, 0, 0⟩ := Reachable.init pool1 0 rfl
  have h2 : Reachable 1 ⟨pool1submitted, 1, 0⟩ :=
    Reachable.step _ _ h1 (Step.submit_ok Priority.MEDIUM 5 _ pool1submitted 1 (by decide))
  have h3 : Reachable 1 ⟨shutdown_immediate pool1submitted, 1, 0⟩ :=
    Reachable.step _ _ h2 (Step.immediate _ rfl)
  exact absurd (hall 1 ⟨shutdown_immediate pool1submitted, 1, 0⟩ h3) (by decide)

/-- C5 amended: pending ≤ active holds in every reachable state, and every
operation except shutdown_immediate — submission, the completion
bookkeeping, graceful shutdown, and task dequeue (wait_all reads state
only) — preserves active == pending; shutdown_immediate resets pending to
0 while leaving active unchanged, so the equality is lost exactly when
queued tasks are dropped. -/
theorem pending_le_active_ops_preserve_eq (n : Nat) (st : SysState)
    (h : Reachable n st) :
    st.pool.pending_tasks_ ≤ st.pool.active_tasks_ ∧
    (∀ (p : Priority) (t : Nat) (s : PoolState) (c : Nat) (s' : PoolState) (c' : Nat),
      submit p t s c = (none, s', c') →
      s.active_tasks_ = s.pending_tasks_ → s'.active_tasks_ = s'.pending_tasks_) ∧
    (∀ s : PoolState, s.active_tasks_ = s.pending_tasks_ →
      (complete_one s).active_tasks_ = (complete_one s).pending_tasks_) ∧
    (∀ s : PoolState, s.active_tasks_ = s.pending_tasks_ →
      (shutdown_graceful s).active_tasks_ = (shutdown_graceful s).pending_tasks_) ∧
    (∀ (i start t : Nat) (s s' : PoolState), get_task i start s = some (t, s') →
      s.active_tasks_ = s.pending_tasks_ → s'.active_tasks_ = s'.pending_tasks_) ∧
    (∀ s : PoolState, s.immediate_stop_ = false →
      (shutdown_immediate s).pending_tasks_ = 0 ∧
      (shutdown_immediate s).active_tasks_ = s.active_tasks_) := by
  refine ⟨(Inv_reachable n st h).2.2.2.1, ?_, ?_, ?_, ?_, ?_⟩
  · intro p t s c s' c' hsub heq
    obtain ⟨-, -, -, -, -, ha, hp, -⟩ := submit_ok_cases p t s c s' c' hsub
    omega
  · intro s heq
    unfold complete_one
    dsimp only
    omega
  · intro s heq
    unfold shutdown_graceful
    by_cases hstop : (s.stop_ || s.immediate_stop_) = true
    · rw [if_pos hstop]
      exact heq
    · rw [if_neg hstop]
      exact heq
  · intro i start t s s' hget heq
    obtain ⟨-, -, -, ha, hp, -⟩ := get_task_some_cases i start t s s' hget
    omega
  · intro s hi
    unfold shutdown_immediate
    rw [if_neg (by rw [hi]; exact Bool.false_ne_true)]
    exact ⟨rfl, rfl⟩

/-- C5 witness: the inequality at a concrete reachable state. -/
theorem pending_le_active_ops_preserve_eq_witness :
    pool1.pending_tasks_ ≤ pool1.active_tasks_ :=
  (pending_le_active_ops_preserve_eq 1 ⟨pool1, 0, 0⟩ (Reachable.init pool1 0 rfl)).1

/-- C6 counterexample: the round-robin dispatch counter is NOT per-pool.
It is a function-local static shared by every pool instance: an accepted
MEDIUM submission to one fresh two-worker pool advances the shared counter
away from 0, and an identical MEDIUM submission to a second, distinct
fresh two-worker pool then produces a different pool state (the task lands
in deque 1 instead of deque 0) than it would have without the first pool's
submission. -/
theorem round_robin_per_pool_cex :
    (submit Priority.MEDIUM 7 pool2 0).2.2 ≠ 0 ∧
    (submit Priority.MEDIUM 5 pool2 ((submit Priority.MEDIUM 7 pool2 0).2.2)).2.1
      ≠ (submit Priority.MEDIUM 5 pool2 0).2.1 := by
  decide

/-- C6 amended: the round-robin counter is a single static shared by all
pool instances (one per template instantiation of submit): every accepted
MEDIUM/LOW submission advances the shared counter by exactly one and
routes the task to local deque counter % N of the submitted-to pool, so a
submission to one pool does change another pool's next routing target;
all remaining pool state (queues, flags, counters) is per-object. -/
theorem round_robin_counter_shared (p : Priority) (t : Nat) (s : PoolState) (c : Nat)
    (s' : PoolState) (c' : Nat) (hp : p ≠ Priority.HIGH)
    (h : submit p t s c = (none, s', c')) :
    c' = c + 1 ∧
    s'.local_queues_ = s.local_queues_.set (c % s.workers_)
      (WorkStealingQueue.push t (s.local_queues_.getD (c % s.workers_) [])) := by
  unfold submit at h
  by_cases hstop : (s.stop_ || s.immediate_stop_) = true
  · rw [if_pos hstop] at h
    simp at h
  · rw [if_neg hstop] at h
    rw [if_neg hp] at h
    simp only [Prod.mk.injEq] at h
    obtain ⟨-, rfl, rfl⟩ := h
    exact ⟨rfl, rfl⟩

/-- C6 witness: a concrete accepted MEDIUM submission advancing the shared
counter from 0 to 1 and routing to deque 0 % 2. -/
theorem round_robin_counter_shared_witness :
    (1 : Nat) = 0 + 1 ∧
    pool2submitted.local_queues_ = pool2.local_queues_.set (0 % pool2.workers_)
      (WorkStealingQueue.push 7 (pool2.local_queues_.getD (0 % pool2.workers_) [])) :=
  round_robin_counter_shared Priority.MEDIUM 7 pool2 0 pool2submitted 1
    (by decide) (by decide)

/-- C10: in every reachable state of a pool constructed with exactly one
worker, try_steal returns false for any worker index and start draw (it
bails out before scanning any deque), and get_stats reports zero stolen
tasks. -/
theorem single_worker_never_steals (st : SysState) (h : Reachable 1 st) :
    (∀ i start : Nat, try_steal i start st.pool = none) ∧
    (get_stats st.pool).tasks_stolen = 0 := by
  have hw := workers_reachable 1 st h
  refine ⟨?_, ?_⟩
  · intro i start
    simp [try_steal, hw]
  · exact (Inv_reachable 1 st h).2.2.2.2.2.2 hw

/-- C10 witness: the fresh one-worker pool never steals. -/
theorem single_worker_never_steals_witness :
    try_steal 0 0 pool1 = none ∧ (get_stats pool1).tasks_stolen = 0 :=
  have h := single_worker_never_steals ⟨pool1, 0, 0⟩ (Reachable.init pool1 0 rfl)
  ⟨h.1 0 0, h.2⟩

end ThreadPool
